import Mathlib

/-!
Verification of `ExpiringMap.h` (pj4dev/custom-cpp-libs): a map whose entries
carry an absolute expiration timestamp, with a `std::map` entry store owning
`shared_ptr<Item>` values and a `std::priority_queue` of `weak_ptr<Item>`
references (the expiry horizon) reconciled lazily by `clearExpired`.

Shallow embedding conventions:
- C++ `long` timestamps and durations are `Int` (the reference platform is
  LP64: `long` is 64 bits, `unsigned int` is 32 bits).
- `current_time()` is passed explicitly as the `now : Int` argument of each
  operation (the clock collaborator of the spec).
- `shared_ptr` identity is modeled by a ghost `id : Nat` stamped on each
  `Item` at creation (`next_id` counter); a `weak_ptr` in the horizon is the
  `Item` value it was created from, and it locks successfully exactly when the
  entry store still owns an item with the same `id` (the generation-checked
  arena model). `std::map` is an association list with unique keys;
  `std::map::find` / `erase` / `emplace` become `find?` / `eraseKey` / cons.
- The priority queue (min-heap on `getExpire()`) is kept as a list sorted by
  ascending `expire`; `push` is ordered insertion, `top` is the head, `pop`
  is the tail.  Ties between equal expirations are resolved by insertion
  order, which the heap leaves unspecified and no observable behavior uses.
- Dereferencing a null `shared_ptr` (undefined behavior in C++) is modeled by
  `Option`: `lock` returns `none` for a stale reference, and `ItemCompare`
  propagates `none` as the undefined result.
-/

/-- One stored association: `ExpiringMap::Item` with fields `key_`, `value_`,
`expire_` (absolute milliseconds), plus the ghost allocation identity `id`
standing for the `shared_ptr` object identity. -/
structure Item (K V : Type) where
  key : K
  value : V
  expire : Int
  id : Nat
  deriving DecidableEq, Repr

/-- The container state: `internal_map_` (the owning entry store) and
`expired_queue_` (the expiry horizon of weak references), plus the ghost
allocation counter backing `Item.id`. -/
structure ExpiringMap (K V : Type) where
  internal_map : List (K × Item K V)
  expired_queue : List (Item K V)
  next_id : Nat
  deriving DecidableEq, Repr

namespace ExpiringMap

variable {K V : Type} [LinearOrder K] [Inhabited V]

/-- A default-constructed `ExpiringMap<K, V>`: both structures empty. -/
def empty : ExpiringMap K V := ⟨[], [], 0⟩

/-- Model of `internal_map_.find(key)`: the item stored under `key`, if any. -/
def find? (m : List (K × Item K V)) (key : K) : Option (Item K V) :=
  (m.find? fun p => decide (p.1 = key)).map Prod.snd

/-- Model of `internal_map_.erase(key)`: drop the (unique) entry keyed `key`. -/
def eraseKey (m : List (K × Item K V)) (key : K) : List (K × Item K V) :=
  m.filter fun p => decide (p.1 ≠ key)

/-- Model of `weak_ptr<Item>::lock()`: the reference resolves exactly when the
entry store still owns an item with the same allocation identity. -/
def lock (m : List (K × Item K V)) (it : Item K V) : Option (Item K V) :=
  if m.any (fun p => decide (p.2.id = it.id)) then some it else none

/-- Model of `ExpiringMap::ItemCompare` applied to the `lock()` results of the
two weak references: `lhs.lock()->getExpire() > rhs.lock()->getExpire()`.
The source dereferences both locks unconditionally, so a stale operand (a
`none` lock) makes the comparison undefined behavior, modeled as `none`. -/
def ItemCompare (lhs rhs : Option (Item K V)) : Option Bool :=
  match lhs, rhs with
  | some a, some b => some (decide (a.expire > b.expire))
  | _, _ => none

/-- Ordered insertion into the horizon, modeling `expired_queue_.push` on the
min-heap ordered by `getExpire()` (ties keep insertion order). -/
def push (it : Item K V) : List (Item K V) → List (Item K V)
  | [] => [it]
  | x :: xs => if it.expire < x.expire then it :: x :: xs else x :: push it xs

/-- The loop body of `ExpiringMap::clearExpired` over an explicit
(store, horizon) pair: pop stale references, erase and pop entries whose
expiration is at or before `now`, stop at the first live future entry. -/
def clearExpiredLoop (now : Int) :
    List (K × Item K V) → List (Item K V) → List (K × Item K V) × List (Item K V)
  | m, [] => (m, [])
  | m, top :: rest =>
    if m.any (fun p => decide (p.2.id = top.id)) then
      if top.expire > now then (m, top :: rest)
      else clearExpiredLoop now (eraseKey m top.key) rest
    else clearExpiredLoop now m rest

/-- Model of `ExpiringMap::clearExpired` acting on the whole state. -/
def clearExpired (now : Int) (s : ExpiringMap K V) : ExpiringMap K V :=
  { internal_map := (clearExpiredLoop now s.internal_map s.expired_queue).1
    expired_queue := (clearExpiredLoop now s.internal_map s.expired_queue).2
    next_id := s.next_id }

/-- Model of `ExpiringMap::put`: compute `expired_time = now + ms`, allocate a
fresh item, erase the previous occupant of `key` if present, insert the new
entry, push a reference onto the horizon, then run `clearExpired`. -/
def put (s : ExpiringMap K V) (now : Int) (key : K) (value : V) (ms : Int) :
    ExpiringMap K V :=
  let expired_time := now + ms
  let item : Item K V := ⟨key, value, expired_time, s.next_id⟩
  clearExpired now
    { internal_map := (key, item) :: eraseKey s.internal_map key
      expired_queue := push item s.expired_queue
      next_id := s.next_id + 1 }

/-- Model of `ExpiringMap::get`: the stored value when the entry exists and
`getExpire() > current_time()`, otherwise the value-initialized `V{}`. -/
def get (s : ExpiringMap K V) (now : Int) (key : K) : V :=
  match find? s.internal_map key with
  | none => default
  | some it => if it.expire > now then it.value else default

/-- The strict-then-tie comparator of `ExpiringMap::keys`, as a total preorder
on entries: ascending `getExpire()`, then ascending key. -/
def entryLE (a b : K × Item K V) : Prop :=
  a.2.expire < b.2.expire ∨ (a.2.expire = b.2.expire ∧ a.1 ≤ b.1)

instance : DecidableRel (entryLE (K := K) (V := V)) := fun a b =>
  inferInstanceAs
    (Decidable (a.2.expire < b.2.expire ∨ (a.2.expire = b.2.expire ∧ a.1 ≤ b.1)))

/-- Model of `ExpiringMap::keys`: collect the keys of entries with
`getExpire() > curtime`, then sort by expiration with the key as tie-break.
`std::sort` with the strict comparator of the source produces exactly the
arrangement sorted by `entryLE`, which is antisymmetric on the distinct keys
of the store. -/
def keys (s : ExpiringMap K V) (now : Int) : List K :=
  ((s.internal_map.filter fun p => decide (p.2.expire > now)).insertionSort
    entryLE).map Prod.fst

/-- Model of `ExpiringMap::left`. The source initializes the accumulator as
`auto expired_time = 0U;`, an `unsigned int`: the `long` difference
`getExpire() - current_time()` is truncated modulo 2^32 into it and then
zero-extended back to `long` by the return, so the returned value is
`(expire - now) mod 2^32`, always in `[0, 2^32)`. An absent key returns 0. -/
def left (s : ExpiringMap K V) (now : Int) (key : K) : Int :=
  match find? s.internal_map key with
  | none => 0
  | some it => (it.expire - now) % 4294967296

/-- Model of `ExpiringMap::erase`: `internal_map_.erase(key)`; the horizon is
not touched. -/
def erase (s : ExpiringMap K V) (key : K) : ExpiringMap K V :=
  { s with internal_map := eraseKey s.internal_map key }

/-- Model of `ExpiringMap::clear`: pop the whole horizon, clear the store. -/
def clear (s : ExpiringMap K V) : ExpiringMap K V :=
  { s with internal_map := [], expired_queue := [] }

/-- Model of `ExpiringMap::size`: run `clearExpired`, then report
`internal_map_.size()`.  The mutated state is returned alongside the count
because the C++ method updates the (mutable) members in place. -/
def size (s : ExpiringMap K V) (now : Int) : ExpiringMap K V × Nat :=
  (clearExpired now s, (clearExpired now s).internal_map.length)

/-- Iteration counter of the `clearExpired` loop: how many times the loop body
runs `expired_queue_.pop()` before the terminal check. -/
def clearExpiredSteps (now : Int) :
    List (K × Item K V) → List (Item K V) → Nat
  | _, [] => 0
  | m, top :: rest =>
    if m.any (fun p => decide (p.2.id = top.id)) then
      if top.expire > now then 0
      else clearExpiredSteps now (eraseKey m top.key) rest + 1
    else clearExpiredSteps now m rest + 1

/-- Number of entries the store holds under `key`. -/
def countKey (m : List (K × Item K V)) (key : K) : Nat :=
  (m.filter fun p => decide (p.1 = key)).length

/-- Horizon order: ascending expiration. -/
def expLe (a b : Item K V) : Prop := a.expire ≤ b.expire

instance : DecidableRel (expLe (K := K) (V := V)) := fun a b =>
  inferInstanceAs (Decidable (a.expire ≤ b.expire))

/-- The spec's horizon-coverage invariant: every entry owned by the store has
its reference present in the horizon. -/
def storeCovered (s : ExpiringMap K V) : Prop :=
  ∀ p ∈ s.internal_map, p.2 ∈ s.expired_queue

instance : IsTotal (K × Item K V) entryLE :=
  ⟨by
    intro a b
    rcases lt_trichotomy a.2.expire b.2.expire with h | h | h
    · exact Or.inl (Or.inl h)
    · rcases le_total a.1 b.1 with h2 | h2
      · exact Or.inl (Or.inr ⟨h, h2⟩)
      · exact Or.inr (Or.inr ⟨h.symm, h2⟩)
    · exact Or.inr (Or.inl h)⟩

instance : IsTrans (K × Item K V) entryLE :=
  ⟨by
    intro a b c hab hbc
    rcases hab with h1 | ⟨h1e, h1k⟩
    · rcases hbc with h2 | ⟨h2e, _⟩
      · exact Or.inl (lt_trans h1 h2)
      · exact Or.inl (h2e ▸ h1)
    · rcases hbc with h2 | ⟨h2e, h2k⟩
      · exact Or.inl (h1e.symm ▸ h2)
      · exact Or.inr ⟨h1e.trans h2e, le_trans h1k h2k⟩⟩

/-- The joint invariant on an explicit (store, horizon) pair, maintained by
the loop of `clearExpired`: store keys are unique; each entry's item records
its own key; every owned item has its reference in the horizon; allocation
identity determines the item; the horizon is ordered by ascending
expiration. -/
structure GoodPair (m : List (K × Item K V)) (q : List (Item K V)) : Prop where
  nodup : (m.map Prod.fst).Nodup
  keyField : ∀ p ∈ m, p.2.key = p.1
  covered : ∀ p ∈ m, p.2 ∈ q
  idInj : ∀ p ∈ m, ∀ it ∈ q, p.2.id = it.id → p.2 = it
  sortedQ : q.Pairwise expLe

/-- The container invariant on full states: the pair invariant plus freshness
of the ghost allocation counter. -/
structure Good (s : ExpiringMap K V) : Prop where
  pair : GoodPair s.internal_map s.expired_queue
  idBound : ∀ it ∈ s.expired_queue, it.id < s.next_id

/-- States reachable from a default-constructed container through the public
operations, with a non-decreasing clock across calls (the only requirement
the spec places on the clock collaborator). The read operations `get`,
`keys` and `left` do not alter the state, so they need no rule. -/
inductive Reachable : Int → ExpiringMap K V → Prop
  | init (t : Int) : Reachable t empty
  | tick {t : Int} {s : ExpiringMap K V} (t' : Int) :
      Reachable t s → t ≤ t' → Reachable t' s
  | put_step {t : Int} {s : ExpiringMap K V} (key : K) (value : V) (ms : Int) :
      Reachable t s → Reachable t (put s t key value ms)
  | erase_step {t : Int} {s : ExpiringMap K V} (key : K) :
      Reachable t s → Reachable t (erase s key)
  | clear_step {t : Int} {s : ExpiringMap K V} :
      Reachable t s → Reachable t (clear s)
  | size_step {t : Int} {s : ExpiringMap K V} :
      Reachable t s → Reachable t (clearExpired t s)

/-- A small demonstration state: `put(1, 7, 10)` on an empty map at clock 0,
leaving one entry keyed 1 with value 7 expiring at 10. -/
def sDemo : ExpiringMap Int Int := put empty 0 1 7 10

/-- A state whose horizon holds a stale reference: `put(1, 7, 100)` at clock
0 and then `erase(1)` destroys the entry while its reference stays queued. -/
def sStale : ExpiringMap Int Int := erase (put empty 0 1 7 100) 1

/-! Basic lemmas about the store and horizon primitives. -/

theorem mem_eraseKey {m : List (K × Item K V)} {key : K} {p : K × Item K V} :
    p ∈ eraseKey m key ↔ p ∈ m ∧ p.1 ≠ key := by
  simp [eraseKey, List.mem_filter]

theorem eraseKey_sublist (m : List (K × Item K V)) (key : K) :
    List.Sublist (eraseKey m key) m :=
  List.filter_sublist m

theorem find?_eq_none_iff {m : List (K × Item K V)} {key : K} :
    find? m key = none ↔ ∀ p ∈ m, p.1 ≠ key := by
  simp [find?, List.find?_eq_none]

theorem mem_of_find?_eq_some {m : List (K × Item K V)} {key : K} {it : Item K V}
    (h : find? m key = some it) : (key, it) ∈ m := by
  induction m with
  | nil => simp [find?] at h
  | cons p rest ih =>
    obtain ⟨a, b⟩ := p
    by_cases hk : a = key
    · subst hk
      rw [find?, List.find?_cons_of_pos _ (by simp)] at h
      simp only [Option.map_some'] at h
      obtain rfl := Option.some.inj h
      exact List.mem_cons_self _ _
    · rw [find?, List.find?_cons_of_neg _ (by simp [hk])] at h
      exact List.mem_cons_of_mem _ (ih h)

theorem mem_map_fst {m : List (K × Item K V)} {p : K × Item K V} (h : p ∈ m) :
    p.1 ∈ m.map Prod.fst :=
  List.mem_map.2 ⟨p, h, rfl⟩

theorem find?_eq_some_of_mem {m : List (K × Item K V)} {key : K} {it : Item K V}
    (hnd : (m.map Prod.fst).Nodup) (h : (key, it) ∈ m) : find? m key = some it := by
  induction m with
  | nil => simp at h
  | cons p rest ih =>
    rw [List.map_cons, List.nodup_cons] at hnd
    rcases List.mem_cons.1 h with h1 | h1
    · rw [find?, List.find?_cons_of_pos _ (by simp [← h1]), ← h1]
      rfl
    · have hak : p.1 ≠ key := by
        intro hak
        exact hnd.1 (by rw [hak]; exact mem_map_fst h1)
      rw [find?, List.find?_cons_of_neg _ (by simp [hak])]
      exact ih hnd.2 h1

theorem nodup_key_eq {m : List (K × Item K V)} {key : K} {a b : Item K V}
    (hnd : (m.map Prod.fst).Nodup) (ha : (key, a) ∈ m) (hb : (key, b) ∈ m) :
    a = b := by
  have h1 := find?_eq_some_of_mem hnd ha
  have h2 := find?_eq_some_of_mem hnd hb
  rw [h1] at h2
  exact Option.some.inj h2

theorem countKey_le_one {m : List (K × Item K V)} {key : K}
    (hnd : (m.map Prod.fst).Nodup) : countKey m key ≤ 1 := by
  induction m with
  | nil => simp [countKey]
  | cons p rest ih =>
    rw [List.map_cons, List.nodup_cons] at hnd
    by_cases hk : p.1 = key
    · have hzero : (List.filter (fun q => decide (q.1 = key)) rest).length = 0 := by
        rw [List.length_eq_zero, List.filter_eq_nil_iff]
        intro q hq
        simp only [decide_eq_true_eq]
        intro hqk
        exact hnd.1 (by rw [hk, ← hqk]; exact mem_map_fst hq)
      simp only [countKey, List.filter_cons]
      rw [if_pos (show decide (p.1 = key) = true from by simp [hk])]
      simp [hzero]
    · simp only [countKey, List.filter_cons]
      rw [if_neg (show ¬decide (p.1 = key) = true from by simp [hk])]
      exact ih hnd.2

theorem countKey_pos {m : List (K × Item K V)} {key : K} {it : Item K V}
    (h : (key, it) ∈ m) : 0 < countKey m key :=
  List.length_pos.2 (List.ne_nil_of_mem (List.mem_filter.2 ⟨h, by simp⟩))

theorem countKey_eq_one {m : List (K × Item K V)} {key : K} {it : Item K V}
    (hnd : (m.map Prod.fst).Nodup) (h : (key, it) ∈ m) : countKey m key = 1 :=
  le_antisymm (countKey_le_one hnd) (countKey_pos h)

theorem mem_push {it a : Item K V} {q : List (Item K V)} :
    a ∈ push it q ↔ a = it ∨ a ∈ q := by
  induction q with
  | nil => simp [push]
  | cons x xs ih =>
    rw [push]
    by_cases hlt : it.expire < x.expire
    · rw [if_pos hlt]
      simp [List.mem_cons]
    · rw [if_neg hlt]
      simp only [List.mem_cons, ih]
      tauto

theorem pairwise_push {it : Item K V} : ∀ {q : List (Item K V)},
    q.Pairwise expLe → (push it q).Pairwise expLe := by
  intro q
  induction q with
  | nil => simp [push, expLe]
  | cons x xs ih =>
    intro h
    by_cases hlt : it.expire < x.expire
    · rw [push, if_pos hlt]
      refine List.Pairwise.cons ?_ h
      intro y hy
      rcases List.mem_cons.1 hy with rfl | hy
      · exact le_of_lt hlt
      · exact le_trans (le_of_lt hlt) ((List.pairwise_cons.1 h).1 y hy)
    · rw [push, if_neg hlt]
      refine List.Pairwise.cons ?_ (ih (List.pairwise_cons.1 h).2)
      intro y hy
      rcases mem_push.1 hy with rfl | hy
      · exact le_of_not_lt hlt
      · exact (List.pairwise_cons.1 h).1 y hy

/-- Everything the `clearExpired` loop guarantees at once: it preserves the
pair invariant, only removes store entries, keeps every entry that is still
strictly live at `now`, leaves only strictly live entries, and only pops
horizon references. -/
theorem clearExpiredLoop_spec (now : Int) :
    ∀ (q : List (Item K V)) (m : List (K × Item K V)), GoodPair m q →
      GoodPair (clearExpiredLoop now m q).1 (clearExpiredLoop now m q).2 ∧
      (∀ p ∈ (clearExpiredLoop now m q).1, p ∈ m) ∧
      (∀ p ∈ m, now < p.2.expire → p ∈ (clearExpiredLoop now m q).1) ∧
      (∀ p ∈ (clearExpiredLoop now m q).1, now < p.2.expire) ∧
      (∀ it ∈ (clearExpiredLoop now m q).2, it ∈ q) := by
  intro q
  induction q with
  | nil =>
    intro m hg
    refine ⟨hg, fun p hp => hp, ?_, ?_, by simp [clearExpiredLoop]⟩
    · intro p hp _
      exact absurd (hg.covered p hp) (by simp)
    · intro p hp
      exact absurd (hg.covered p (by simpa [clearExpiredLoop] using hp)) (by simp)
  | cons top rest ih =>
    intro m hg
    rw [clearExpiredLoop]
    by_cases hal : (m.any fun p => decide (p.2.id = top.id)) = true
    · rw [if_pos hal]
      obtain ⟨p0, hp0m, hp0id⟩ := List.any_eq_true.1 hal
      have hp0top : p0.2 = top :=
        hg.idInj p0 hp0m top (List.mem_cons_self _ _) (of_decide_eq_true hp0id)
      by_cases htop : top.expire > now
      · rw [if_pos htop]
        refine ⟨hg, fun p hp => hp, fun p hp _ => hp, ?_, fun it hit => hit⟩
        intro p hp
        rcases List.mem_cons.1 (hg.covered p hp) with h1 | h1
        · exact h1 ▸ htop
        · exact lt_of_lt_of_le htop ((List.pairwise_cons.1 hg.sortedQ).1 p.2 h1)
      · rw [if_neg htop]
        have hgp : GoodPair (eraseKey m top.key) rest := by
          refine ⟨hg.nodup.sublist ((eraseKey_sublist m top.key).map Prod.fst),
            fun p hp => hg.keyField p (mem_eraseKey.1 hp).1, ?_,
            fun p hp it hit h =>
              hg.idInj p (mem_eraseKey.1 hp).1 it (List.mem_cons_of_mem _ hit) h,
            (List.pairwise_cons.1 hg.sortedQ).2⟩
          intro p hp
          obtain ⟨hpm, hpk⟩ := mem_eraseKey.1 hp
          rcases List.mem_cons.1 (hg.covered p hpm) with h1 | h1
          · exact absurd ((hg.keyField p hpm).symm.trans (congrArg Item.key h1)) hpk
          · exact h1
        obtain ⟨ig, isub, imem, ilive, iq⟩ := ih (eraseKey m top.key) hgp
        refine ⟨ig, fun p hp => (mem_eraseKey.1 (isub p hp)).1, ?_,
          ilive, fun it hit => List.mem_cons_of_mem _ (iq it hit)⟩
        intro p hp hlive
        refine imem p (mem_eraseKey.2 ⟨hp, ?_⟩) hlive
        intro hpk
        have hp0key : p0.1 = top.key := (hg.keyField p0 hp0m).symm.trans (congrArg Item.key hp0top)
        have : p.2 = p0.2 := by
          have ha : (p.1, p.2) ∈ m := by simpa using hp
          have hb : (p.1, p0.2) ∈ m := by
            have : (p0.1, p0.2) ∈ m := by simpa using hp0m
            rwa [hp0key, ← hpk] at this
          exact nodup_key_eq hg.nodup ha hb
        rw [this, hp0top] at hlive
        exact htop hlive
    · rw [if_neg hal]
      have hgp : GoodPair m rest := by
        refine ⟨hg.nodup, hg.keyField, ?_,
          fun p hp it hit h => hg.idInj p hp it (List.mem_cons_of_mem _ hit) h,
          (List.pairwise_cons.1 hg.sortedQ).2⟩
        intro p hp
        rcases List.mem_cons.1 (hg.covered p hp) with h1 | h1
        · exact absurd (List.any_eq_true.2 ⟨p, hp, decide_eq_true (congrArg Item.id h1)⟩) hal
        · exact h1
      obtain ⟨ig, isub, imem, ilive, iq⟩ := ih m hgp
      exact ⟨ig, isub, imem, ilive, fun it hit => List.mem_cons_of_mem _ (iq it hit)⟩

theorem clearExpired_good {s : ExpiringMap K V} (now : Int) (hg : Good s) :
    Good (clearExpired now s) := by
  obtain ⟨g, _, _, _, hq⟩ := clearExpiredLoop_spec now s.expired_queue s.internal_map hg.pair
  exact ⟨g, fun it hit => hg.idBound it (hq it hit)⟩

theorem clearExpired_live {s : ExpiringMap K V} (now : Int) (hg : Good s) :
    ∀ p ∈ (clearExpired now s).internal_map, now < p.2.expire :=
  (clearExpiredLoop_spec now s.expired_queue s.internal_map hg.pair).2.2.2.1

theorem clearExpired_sub {s : ExpiringMap K V} (now : Int) (hg : Good s) :
    ∀ p ∈ (clearExpired now s).internal_map, p ∈ s.internal_map :=
  (clearExpiredLoop_spec now s.expired_queue s.internal_map hg.pair).2.1

theorem clearExpired_mem_live {s : ExpiringMap K V} (now : Int) (hg : Good s) :
    ∀ p ∈ s.internal_map, now < p.2.expire → p ∈ (clearExpired now s).internal_map :=
  (clearExpiredLoop_spec now s.expired_queue s.internal_map hg.pair).2.2.1

/-- Unfolding of `put` into the intermediate state it builds before running
`clearExpired`. -/
theorem put_eq (s : ExpiringMap K V) (now : Int) (key : K) (value : V) (ms : Int) :
    put s now key value ms = clearExpired now
      { internal_map :=
          (key, ⟨key, value, now + ms, s.next_id⟩) :: eraseKey s.internal_map key
        expired_queue := push ⟨key, value, now + ms, s.next_id⟩ s.expired_queue
        next_id := s.next_id + 1 } := rfl

/-- The intermediate state of `put` satisfies the invariant. -/
theorem put_mid_good {s : ExpiringMap K V} (hg : Good s) (now : Int) (key : K)
    (value : V) (ms : Int) :
    Good { internal_map :=
             (key, ⟨key, value, now + ms, s.next_id⟩) :: eraseKey s.internal_map key
           expired_queue := push ⟨key, value, now + ms, s.next_id⟩ s.expired_queue
           next_id := s.next_id + 1 : ExpiringMap K V } := by
  set item : Item K V := ⟨key, value, now + ms, s.next_id⟩ with hitem
  have hidq : ∀ it ∈ s.expired_queue, it.id ≠ item.id := by
    intro it hit h
    exact absurd (h ▸ hg.idBound it hit) (lt_irrefl _)
  refine ⟨⟨?_, ?_, ?_, ?_, pairwise_push hg.pair.sortedQ⟩, ?_⟩
  · rw [List.map_cons, List.nodup_cons]
    refine ⟨?_, hg.pair.nodup.sublist ((eraseKey_sublist s.internal_map key).map Prod.fst)⟩
    intro hmem
    obtain ⟨p, hp, hpk⟩ := List.mem_map.1 hmem
    exact (mem_eraseKey.1 hp).2 hpk
  · intro p hp
    rcases List.mem_cons.1 hp with h1 | h1
    · rw [h1]
    · exact hg.pair.keyField p (mem_eraseKey.1 h1).1
  · intro p hp
    rcases List.mem_cons.1 hp with h1 | h1
    · exact mem_push.2 (Or.inl (congrArg Prod.snd h1))
    · exact mem_push.2 (Or.inr (hg.pair.covered p (mem_eraseKey.1 h1).1))
  · intro p hp it hit hid
    rcases List.mem_cons.1 hp with h1 | h1
    · rcases mem_push.1 hit with h2 | h2
      · rw [h1, h2]
      · rw [congrArg Prod.snd h1] at hid
        exact absurd hid.symm (hidq it h2)
    · rcases mem_push.1 hit with h2 | h2
      · have : p.2 ∈ s.expired_queue := hg.pair.covered p (mem_eraseKey.1 h1).1
        rw [h2] at hid
        exact absurd hid (hidq p.2 this)
      · exact hg.pair.idInj p (mem_eraseKey.1 h1).1 it h2 hid
  · intro it hit
    rcases mem_push.1 hit with h1 | h1
    · rw [h1]
      exact Nat.lt_succ_self _
    · exact Nat.lt_succ_of_lt (hg.idBound it h1)

theorem put_good {s : ExpiringMap K V} (hg : Good s) (now : Int) (key : K)
    (value : V) (ms : Int) : Good (put s now key value ms) := by
  rw [put_eq]
  exact clearExpired_good now (put_mid_good hg now key value ms)

theorem erase_good {s : ExpiringMap K V} (hg : Good s) (key : K) :
    Good (erase s key) := by
  refine ⟨⟨hg.pair.nodup.sublist ((eraseKey_sublist s.internal_map key).map Prod.fst),
    fun p hp => hg.pair.keyField p (mem_eraseKey.1 hp).1,
    fun p hp => hg.pair.covered p (mem_eraseKey.1 hp).1,
    fun p hp it hit h => hg.pair.idInj p (mem_eraseKey.1 hp).1 it hit h,
    hg.pair.sortedQ⟩, hg.idBound⟩

theorem clear_good {s : ExpiringMap K V} : Good (clear s) := by
  refine ⟨⟨by simp [clear], by simp [clear], by simp [clear], by simp [clear],
    by simp [clear]⟩, by simp [clear]⟩

theorem empty_good : Good (empty : ExpiringMap K V) := by
  refine ⟨⟨by simp [empty], by simp [empty], by simp [empty], by simp [empty],
    by simp [empty]⟩, by simp [empty]⟩

/-- Every reachable container state satisfies the invariant: the inductive
step is exactly preservation by each public operation. -/
theorem reachable_good {t : Int} {s : ExpiringMap K V} (h : Reachable t s) :
    Good s := by
  induction h with
  | init _ => exact empty_good
  | tick _ _ _ ih => exact ih
  | put_step key value ms _ ih => exact put_good ih _ _ _ _
  | erase_step key _ ih => exact erase_good ih _
  | clear_step _ _ => exact clear_good
  | size_step _ ih => exact clearExpired_good _ ih

theorem find?_eraseKey_ne {m : List (K × Item K V)} {key key' : K}
    (h : key' ≠ key) : find? (eraseKey m key) key' = find? m key' := by
  induction m with
  | nil => rfl
  | cons p rest ih =>
    simp only [find?, eraseKey] at ih ⊢
    rw [List.filter_cons]
    by_cases hpk : p.1 = key
    · rw [if_neg (by simp [hpk])]
      rw [List.find?_cons_of_neg _ (by
        simp only [decide_eq_true_eq, hpk]
        exact fun hq => h hq.symm)]
      exact ih
    · rw [if_pos (by simp [hpk])]
      by_cases hpk' : p.1 = key'
      · rw [List.find?_cons_of_pos _ (by simp [hpk']),
          List.find?_cons_of_pos _ (by simp [hpk'])]
      · rw [List.find?_cons_of_neg _ (by simp [hpk']),
          List.find?_cons_of_neg _ (by simp [hpk'])]
        exact ih

theorem eraseKey_eq_self {m : List (K × Item K V)} {key : K}
    (h : ∀ p ∈ m, p.1 ≠ key) : eraseKey m key = m :=
  List.filter_eq_self.2 fun p hp => by simpa using h p hp

/-- Membership in the output of `keys`, characterized through the store. -/
theorem mem_keys_iff {s : ExpiringMap K V} (hg : Good s) {now : Int} {k : K} :
    k ∈ keys s now ↔
      ∃ it, find? s.internal_map k = some it ∧ it.expire > now := by
  simp only [keys, List.mem_map]
  constructor
  · rintro ⟨p, hp, rfl⟩
    have hp2 : p ∈ s.internal_map.filter (fun p => decide (p.2.expire > now)) :=
      (List.perm_insertionSort entryLE _).mem_iff.1 hp
    obtain ⟨hpm, hplive⟩ := List.mem_filter.1 hp2
    exact ⟨p.2, find?_eq_some_of_mem hg.pair.nodup (by simpa using hpm),
      by simpa using hplive⟩
  · rintro ⟨it, hfind, hlive⟩
    refine ⟨(k, it), ?_, rfl⟩
    apply (List.perm_insertionSort entryLE _).mem_iff.2
    exact List.mem_filter.2 ⟨mem_of_find?_eq_some hfind, by simpa using hlive⟩

theorem good_sDemo : Good sDemo :=
  ⟨⟨by decide, by decide, by decide, by decide, by decide⟩, by decide⟩

/-! The claims. -/

/-- Claim C1, evaluated at the input that exposes the bug: with the single
entry keyed 1 expiring at 10 still present and the clock at 15, the claim
(and the function's own doc comment) require `left` to return
`expire_at - now() = -5`, a non-positive number (the doc comment even says
zero); the code instead stores the `long` difference in the `unsigned int`
local `expired_time` (`auto expired_time = 0U;`), so it returns the wrapped
positive value `(10 - 15) mod 2^32 = 4294967291`. The absent-key path does
return zero as claimed. -/
theorem C1_left_unsigned_truncation :
    find? sDemo.internal_map 1 = some ⟨1, 7, 10, 0⟩ ∧
    left sDemo 15 1 = 4294967291 ∧
    left sDemo 15 1 ≠ 10 - 15 ∧
    0 < left sDemo 15 1 ∧
    left sDemo 15 2 = 0 := by decide

/-- Claim C2, evaluated at the input that exposes the bug: after
`put(1,7,100)` then `erase(1)`, the horizon still holds a reference to the
destroyed entry; its `lock()` resolves to nothing, and `ItemCompare` — which
dereferences both locks unconditionally, with no null branch — is undefined
(`none`) whenever that stale reference is an operand, e.g. against the fresh
item the next `put` pushes through the heap. Staleness is not detected and
not treated as a no-op in the comparator, contrary to the claim. -/
theorem C2_ItemCompare_stale_undefined :
    (⟨1, 7, 100, 0⟩ : Item Int Int) ∈ sStale.expired_queue ∧
    lock sStale.internal_map ⟨1, 7, 100, 0⟩ = none ∧
    ItemCompare (lock sStale.internal_map ⟨1, 7, 100, 0⟩)
      (some ⟨2, 9, 50, 1⟩) = none ∧
    ItemCompare (some ⟨2, 9, 50, 1⟩)
      (lock sStale.internal_map ⟨1, 7, 100, 0⟩) = none := by decide

/-- Claim C3: `get` on a key whose current entry is expired
(`expire_at <= now`) but still unreconciled returns the value type's default,
exactly as `get` on an absent key does; `get` is a pure function of the
state in this model because the source's `get` performs only the inline
liveness check (its `clearExpired()` call is commented out), so neither case
changes any state. -/
theorem C3_get_expired_eq_absent (s : ExpiringMap K V) (now : Int) (key : K)
    (it : Item K V) (hfind : find? s.internal_map key = some it)
    (hexp : it.expire ≤ now) :
    get s now key = (default : V) ∧
    ∀ (s' : ExpiringMap K V) (key' : K), find? s'.internal_map key' = none →
      get s' now key' = (default : V) := by
  constructor
  · simp only [get, hfind]
    rw [if_neg (not_lt.2 hexp)]
  · intro s' key' hnone
    simp only [get, hnone]

/-- Witness for C3 at a concrete expired-but-present entry. -/
theorem C3_get_expired_eq_absent_witness :
    (find? sDemo.internal_map 1 = some ⟨1, 7, 10, 0⟩ ∧
      (⟨1, 7, 10, 0⟩ : Item Int Int).expire ≤ 15) ∧
    (get sDemo 15 1 = (default : Int) ∧
      ∀ (s' : ExpiringMap Int Int) (key' : Int),
        find? s'.internal_map key' = none → get s' 15 key' = (default : Int)) :=
  ⟨⟨by decide, by decide⟩,
    C3_get_expired_eq_absent sDemo 15 1 ⟨1, 7, 10, 0⟩ (by decide) (by decide)⟩

/-- Claim C7: `erase` never fails, removes the key's entry from the store if
present, is a no-op when the key is absent, and leaves the horizon (and
every other key's entry) exactly as before. -/
theorem C7_erase_frame (s : ExpiringMap K V) (key : K) :
    (erase s key).expired_queue = s.expired_queue ∧
    (erase s key).next_id = s.next_id ∧
    find? (erase s key).internal_map key = none ∧
    (∀ key', key' ≠ key →
      find? (erase s key).internal_map key' = find? s.internal_map key') ∧
    (find? s.internal_map key = none → erase s key = s) := by
  refine ⟨rfl, rfl, ?_, ?_, ?_⟩
  · exact find?_eq_none_iff.2 fun p hp => (mem_eraseKey.1 hp).2
  · intro key' h
    exact find?_eraseKey_ne h
  · intro hnone
    rw [erase, eraseKey_eq_self (find?_eq_none_iff.1 hnone)]

/-- Witness for C7 at a concrete state and key. -/
theorem C7_erase_frame_witness :
    (erase sDemo 1).expired_queue = sDemo.expired_queue ∧
    (erase sDemo 1).next_id = sDemo.next_id ∧
    find? (erase sDemo 1).internal_map 1 = none ∧
    (∀ key', key' ≠ 1 →
      find? (erase sDemo 1).internal_map key' = find? sDemo.internal_map key') ∧
    (find? sDemo.internal_map 1 = none → erase sDemo 1 = sDemo) :=
  C7_erase_frame sDemo 1

/-- Claim C8: the reconciliation loop always terminates — it is a total
structurally recursive function of the horizon — and its iteration count is
bounded by the horizon's size at entry: every non-terminal iteration pops
exactly one horizon reference (iterations + surviving references = initial
size), and the store never grows along the way. -/
theorem C8_clearExpired_terminates (now : Int) (m : List (K × Item K V))
    (q : List (Item K V)) :
    clearExpiredSteps now m q ≤ q.length ∧
    (clearExpiredLoop now m q).2.length + clearExpiredSteps now m q = q.length ∧
    (clearExpiredLoop now m q).1.length ≤ m.length := by
  induction q generalizing m with
  | nil => simp [clearExpiredSteps, clearExpiredLoop]
  | cons top rest ih =>
    rw [clearExpiredSteps, clearExpiredLoop]
    by_cases hal : (m.any fun p => decide (p.2.id = top.id)) = true
    · rw [if_pos hal, if_pos hal]
      by_cases htop : top.expire > now
      · rw [if_pos htop, if_pos htop]
        simp
      · rw [if_neg htop, if_neg htop]
        obtain ⟨h1, h2, h3⟩ := ih (eraseKey m top.key)
        refine ⟨by simp [List.length_cons]; omega, by simp [List.length_cons]; omega, ?_⟩
        exact le_trans h3 (eraseKey_sublist m top.key).length_le
    · rw [if_neg hal, if_neg hal]
      obtain ⟨h1, h2, h3⟩ := ih m
      exact ⟨by simp only [List.length_cons]; omega,
        by simp only [List.length_cons]; omega, h3⟩

/-- Claim C9: the horizon-coverage invariant — every entry the store owns has
a corresponding reference in the horizon (the horizon may hold more, stale,
references but never fewer) — holds after each of `put`, `erase`, `clear`,
`clearExpired` and `size`; `get`, `keys` and `left` do not change the state
at all in this model (the source mutates nothing in them), so the invariant
persists through them trivially, as the first conjunct states. -/
theorem C9_invariant_preserved (s : ExpiringMap K V) (hg : Good s) (now : Int)
    (key : K) (value : V) (ms : Int) :
    storeCovered s ∧
    storeCovered (put s now key value ms) ∧
    storeCovered (erase s key) ∧
    storeCovered (clear s) ∧
    storeCovered (clearExpired now s) ∧
    storeCovered (size s now).1 :=
  ⟨hg.pair.covered, (put_good hg now key value ms).pair.covered,
    (erase_good hg key).pair.covered, clear_good.pair.covered,
    (clearExpired_good now hg).pair.covered,
    (clearExpired_good now hg).pair.covered⟩

/-- Witness for C9 at a concrete state and operation arguments. -/
theorem C9_invariant_preserved_witness :
    Good sDemo ∧
    (storeCovered sDemo ∧
      storeCovered (put sDemo 20 2 9 5) ∧
      storeCovered (erase sDemo 2) ∧
      storeCovered (clear sDemo) ∧
      storeCovered (clearExpired 20 sDemo) ∧
      storeCovered (size sDemo 20).1) :=
  ⟨good_sDemo, C9_invariant_preserved sDemo good_sDemo 20 2 9 5⟩

/-- Claim C4: `keys` returns exactly the keys whose current entry satisfies
`expire_at > now` at call time, sorted by ascending expiration timestamp
with ascending key value breaking ties. -/
theorem C4_keys_exact_sorted (s : ExpiringMap K V) (hg : Good s) (now : Int) :
    (∀ k, k ∈ keys s now ↔
      ∃ it, find? s.internal_map k = some it ∧ it.expire > now) ∧
    (keys s now).Pairwise (fun a b =>
      ∀ ita itb, find? s.internal_map a = some ita →
        find? s.internal_map b = some itb →
        ita.expire < itb.expire ∨ (ita.expire = itb.expire ∧ a < b)) := by
  refine ⟨fun k => mem_keys_iff hg, ?_⟩
  set l := s.internal_map.filter (fun p => decide (p.2.expire > now)) with hl
  have hsorted : (l.insertionSort entryLE).Pairwise entryLE :=
    List.sorted_insertionSort entryLE l
  have hnodupl : ((l.insertionSort entryLE).map Prod.fst).Nodup := by
    have hperm := (List.perm_insertionSort entryLE l).map Prod.fst
    have hbase : (l.map Prod.fst).Nodup :=
      hg.pair.nodup.sublist ((List.filter_sublist _).map Prod.fst)
    exact hperm.nodup_iff.2 hbase
  have hne : (l.insertionSort entryLE).Pairwise (fun p q => p.1 ≠ q.1) :=
    List.pairwise_map.1 hnodupl
  have hcomb := hsorted.and hne
  rw [keys, ← hl, List.pairwise_map]
  refine List.Pairwise.imp_of_mem ?_ hcomb
  intro p q hp hq hpq
  obtain ⟨hle, hnepq⟩ := hpq
  intro ita itb hfa hfb
  have hpm : p ∈ s.internal_map :=
    (List.mem_filter.1 ((List.perm_insertionSort entryLE l).mem_iff.1 hp)).1
  have hqm : q ∈ s.internal_map :=
    (List.mem_filter.1 ((List.perm_insertionSort entryLE l).mem_iff.1 hq)).1
  have hita : ita = p.2 :=
    nodup_key_eq hg.pair.nodup (mem_of_find?_eq_some hfa) (by simpa using hpm)
  have hitb : itb = q.2 :=
    nodup_key_eq hg.pair.nodup (mem_of_find?_eq_some hfb) (by simpa using hqm)
  rw [hita, hitb]
  rcases hle with h | ⟨he, hk⟩
  · exact Or.inl h
  · exact Or.inr ⟨he, lt_of_le_of_ne hk hnepq⟩

/-- Witness for C4 at a concrete state and instant. -/
theorem C4_keys_exact_sorted_witness :
    Good sDemo ∧
    ((∀ k, k ∈ keys sDemo 0 ↔
        ∃ it, find? sDemo.internal_map k = some it ∧ it.expire > 0) ∧
      (keys sDemo 0).Pairwise (fun a b =>
        ∀ ita itb, find? sDemo.internal_map a = some ita →
          find? sDemo.internal_map b = some itb →
          ita.expire < itb.expire ∨ (ita.expire = itb.expire ∧ a < b))) :=
  ⟨good_sDemo, C4_keys_exact_sorted sDemo good_sDemo 0⟩

/-- Claim C5: `size` first runs the reconciliation procedure and then returns
the number of entries left in the store, and that count equals the number of
keys `keys()` reports at the same instant on the reconciled state (every
expired entry having been removed). -/
theorem C5_size_reconciles (s : ExpiringMap K V) (hg : Good s) (now : Int) :
    size s now =
      (clearExpired now s, (clearExpired now s).internal_map.length) ∧
    (size s now).2 = (keys (size s now).1 now).length := by
  refine ⟨rfl, ?_⟩
  have hfilter : (clearExpired now s).internal_map.filter
      (fun p => decide (p.2.expire > now)) = (clearExpired now s).internal_map :=
    List.filter_eq_self.2 fun p hp => by
      simpa using clearExpired_live now hg p hp
  show (clearExpired now s).internal_map.length
      = (keys (clearExpired now s) now).length
  rw [keys, hfilter, List.length_map, List.length_insertionSort]

/-- Witness for C5 at a concrete state and instant. -/
theorem C5_size_reconciles_witness :
    Good sDemo ∧
    (size sDemo 0 =
        (clearExpired 0 sDemo, (clearExpired 0 sDemo).internal_map.length) ∧
      (size sDemo 0).2 = (keys (size sDemo 0).1 0).length) :=
  ⟨good_sDemo, C5_size_reconciles sDemo good_sDemo 0⟩

/-- Claim C6, refuted as stated: the claim quantifies over every duration
`t2`, but `put(1, 6, 0)` after `put(1, 5, 100)` at clock 0 creates an entry
with `expire_at = now`, which the reconciliation pass inside `put` removes
at once — no live entry for the key remains and `size()` counts it zero
times, not once. -/
theorem C6_put_overwrite_counterexample :
    find?
      (put (put (empty (K := Int) (V := Int)) 0 1 5 100) 0 1 6 0).internal_map 1
      = none ∧
    (size (put (put (empty (K := Int) (V := Int)) 0 1 5 100) 0 1 6 0) 0).2 = 0 := by
  decide

/-- Claim C6 as amended: provided the second duration is positive
(`0 < t2`, so the overwriting entry is still live at its own insertion
instant), `put(k, v1, t1)` then `put(k, v2, t2)` leaves exactly one entry
for `k` — value `v2`, expiration `now2 + t2` — and `size()` run at the same
instant still counts `k` exactly once. -/
theorem C6_put_overwrite (s : ExpiringMap K V) (hg : Good s) (now1 now2 : Int)
    (key : K) (v1 v2 : V) (t1 t2 : Int) (h12 : now1 ≤ now2) (ht2 : 0 < t2) :
    ∃ it,
      find? (put (put s now1 key v1 t1) now2 key v2 t2).internal_map key
        = some it ∧
      it.value = v2 ∧ it.expire = now2 + t2 ∧
      countKey (put (put s now1 key v1 t1) now2 key v2 t2).internal_map key = 1 ∧
      countKey
        ((size (put (put s now1 key v1 t1) now2 key v2 t2) now2).1.internal_map)
        key = 1 := by
  have hg1 : Good (put s now1 key v1 t1) := put_good hg now1 key v1 t1
  set s1 := put s now1 key v1 t1 with hs1
  have hg2 : Good (put s1 now2 key v2 t2) := put_good hg1 now2 key v2 t2
  have hmid := put_mid_good hg1 now2 key v2 t2
  have hlive : now2 < (⟨key, v2, now2 + t2, s1.next_id⟩ : Item K V).expire :=
    lt_add_of_pos_right now2 ht2
  have hmem2 : (key, (⟨key, v2, now2 + t2, s1.next_id⟩ : Item K V))
      ∈ (put s1 now2 key v2 t2).internal_map := by
    rw [put_eq]
    exact clearExpired_mem_live now2 hmid _ (List.mem_cons_self _ _) hlive
  have hg3 := clearExpired_good now2 hg2
  have hmem3 : (key, (⟨key, v2, now2 + t2, s1.next_id⟩ : Item K V))
      ∈ (clearExpired now2 (put s1 now2 key v2 t2)).internal_map :=
    clearExpired_mem_live now2 hg2 _ hmem2 hlive
  exact ⟨⟨key, v2, now2 + t2, s1.next_id⟩,
    find?_eq_some_of_mem hg2.pair.nodup hmem2, rfl, rfl,
    countKey_eq_one hg2.pair.nodup hmem2,
    countKey_eq_one hg3.pair.nodup hmem3⟩

/-- Witness for the amended C6 at concrete inputs. -/
theorem C6_put_overwrite_witness :
    (Good (empty : ExpiringMap Int Int) ∧ (0 : Int) ≤ 0 ∧ (0 : Int) < 50) ∧
    (∃ it,
      find? (put (put (empty : ExpiringMap Int Int) 0 1 5 100) 0 1 6 50).internal_map 1
        = some it ∧
      it.value = 6 ∧ it.expire = 0 + 50 ∧
      countKey (put (put (empty : ExpiringMap Int Int) 0 1 5 100) 0 1 6 50).internal_map 1
        = 1 ∧
      countKey
        ((size (put (put (empty : ExpiringMap Int Int) 0 1 5 100) 0 1 6 50) 0).1.internal_map)
        1 = 1) :=
  ⟨⟨empty_good, by decide, by decide⟩,
    C6_put_overwrite empty empty_good 0 0 1 5 6 100 50 (by decide) (by decide)⟩

/-- Claim C10: the expiration boundary is exclusive on every read path — an
entry with `expire_at = now` is invisible to `get`, omitted by `keys`, and
removed by the reconciliation procedure (everything it leaves is strictly
live); in particular `put(k, v, 0)` followed by `get(k)` at the same clock
reading returns the default and `keys()` omits `k`. -/
theorem C10_boundary_exclusive (s : ExpiringMap K V) (hg : Good s) (now : Int)
    (key : K) (value : V) :
    (∀ k it, find? s.internal_map k = some it → it.expire = now →
      get s now k = (default : V)) ∧
    (∀ k it, find? s.internal_map k = some it → it.expire = now →
      k ∉ keys s now) ∧
    (∀ k it, find? (clearExpired now s).internal_map k = some it →
      now < it.expire) ∧
    get (put s now key value 0) now key = (default : V) ∧
    key ∉ keys (put s now key value 0) now := by
  have hput := put_good hg now key value 0
  have hmid := put_mid_good hg now key value 0
  have hnone : find? (put s now key value 0).internal_map key = none := by
    rw [find?_eq_none_iff]
    intro p hp hpk
    have hp' : p ∈ (clearExpired now
        { internal_map :=
            (key, ⟨key, value, now + 0, s.next_id⟩) :: eraseKey s.internal_map key
          expired_queue := push ⟨key, value, now + 0, s.next_id⟩ s.expired_queue
          next_id := s.next_id + 1 : ExpiringMap K V }).internal_map := by
      rw [← put_eq]
      exact hp
    have hlive := clearExpired_live now hmid p hp'
    have hsub := clearExpired_sub now hmid p hp'
    rcases List.mem_cons.1 hsub with h1 | h1
    · have h2 : p.2 = ⟨key, value, now + 0, s.next_id⟩ := congrArg Prod.snd h1
      rw [h2] at hlive
      simp at hlive
    · exact (mem_eraseKey.1 h1).2 hpk
  refine ⟨?_, ?_, ?_, ?_, ?_⟩
  · intro k it hfind hexp
    simp only [get, hfind]
    rw [if_neg (by rw [hexp]; exact lt_irrefl now)]
  · intro k it hfind hexp hmem
    rw [mem_keys_iff hg] at hmem
    obtain ⟨it', hfind', hlive'⟩ := hmem
    rw [hfind] at hfind'
    obtain rfl := Option.some.inj hfind'
    rw [hexp] at hlive'
    exact lt_irrefl now hlive'
  · intro k it hfind
    exact clearExpired_live now hg (k, it) (mem_of_find?_eq_some hfind)
  · simp only [get, hnone]
  · intro hmem
    rw [mem_keys_iff hput] at hmem
    obtain ⟨it, hf, _⟩ := hmem
    rw [hnone] at hf
    exact Option.noConfusion hf

/-- Witness for C10 at a concrete state, key and instant. -/
theorem C10_boundary_exclusive_witness :
    Good sDemo ∧
    ((∀ k it, find? sDemo.internal_map k = some it → it.expire = 7 →
        get sDemo 7 k = (default : Int)) ∧
      (∀ k it, find? sDemo.internal_map k = some it → it.expire = 7 →
        k ∉ keys sDemo 7) ∧
      (∀ k it, find? (clearExpired 7 sDemo).internal_map k = some it →
        7 < it.expire) ∧
      get (put sDemo 7 2 9 0) 7 2 = (default : Int) ∧
      2 ∉ keys (put sDemo 7 2 9 0) 7) :=
  ⟨good_sDemo, C10_boundary_exclusive sDemo good_sDemo 7 2 9⟩

end ExpiringMap
